import Mathlib

/-!
Shallow embedding of the quiche pacer (src/quiche/src/recovery/pacer.rs).

The Rust code tracks time with `std::time::Instant` / `Duration`.  We model
timestamps and durations as rationals (seconds): the interval computation
`capacity as f64 / rate as f64` becomes exact rational division, the
semantic model the design describes ("the interval computation
`capacity/rate` is a real-valued division").  `Instant::now()` inside
`reset` is modelled by an explicit `now : ℚ` argument; when `reset` is
invoked internally from `send`, the `now` passed to `send` is used, since
the pacer is accessed sequentially on a monotonic clock.
`saturating_duration_since` becomes `max (now - last_update) 0`.
The `usize` byte counters are modelled as `ℕ`.
-/

set_option autoImplicit false
set_option maxRecDepth 4000

/-- State of the pacer, mirroring `struct Pacer` field for field:
`capacity` and `used` are byte counts (`usize` → `ℕ`), `rate` is bytes/sec
(`u64` → `ℕ`), `last_update` and `next_time` are instants (→ `ℚ` seconds). -/
@[ext]
structure Pacer where
  capacity : ℕ
  used : ℕ
  rate : ℕ
  last_update : ℚ
  next_time : ℚ
  deriving DecidableEq, Repr

namespace Pacer

/-- Embeds `Pacer::new(capacity, rate)`: `used = 0`, both timestamps set to the
current time (the two `Instant::now()` calls are the same instant `now`). -/
def new (capacity rate : ℕ) (now : ℚ) : Pacer :=
  { capacity := capacity
    used := 0
    rate := rate
    last_update := now
    next_time := now }

/-- Embeds `Pacer::reset()`: zero `used`, move `last_update` to now, and clamp
`next_time` up to now (`self.next_time.max(now)`). -/
def reset (p : Pacer) (now : ℚ) : Pacer :=
  { p with
    used := 0
    last_update := now
    next_time := max p.next_time now }

/-- Embeds `Pacer::update(capacity, rate)`: replace capacity and rate, then
reset. -/
def update (p : Pacer) (capacity rate : ℕ) (now : ℚ) : Pacer :=
  reset { p with capacity := capacity, rate := rate } now

/-- The burst interval `Duration::from_secs_f64(capacity as f64 / rate as f64)`,
as an exact rational number of seconds. -/
def interval (p : Pacer) : ℚ :=
  (p.capacity : ℚ) / (p.rate : ℚ)

/-- Embeds `now.saturating_duration_since(self.last_update)`. -/
def elapsed (p : Pacer) (now : ℚ) : ℚ :=
  max (now - p.last_update) 0

/-- The staleness step of `send` (lines 110–113): `if elapsed > interval`,
reset the pacer, otherwise leave it unchanged. -/
def afterStale (p : Pacer) (now : ℚ) : Pacer :=
  if p.interval < p.elapsed now then p.reset now else p

/-- The accounting tail of `send` (lines 115–126): add `sent_bytes` to
`used`; on rollover (`used >= capacity`) subtract `capacity`, move
`last_update` to `now` and schedule `interval` later; finally
`next_time = (last_update + next).max(now)`. -/
def sendPaced (p : Pacer) (sent_bytes : ℕ) (now : ℚ) : Pacer :=
  let used1 := p.used + sent_bytes
  if p.capacity ≤ used1 then
    { p with
      used := used1 - p.capacity
      last_update := now
      next_time := max (now + p.interval) now }
  else
    { p with
      used := used1
      next_time := max p.last_update now }

/-- Embeds `Pacer::send(sent_bytes, now)`: the degenerate fast path when
`rate == 0 || sent_bytes == 0` sets `next_time = last_update.max(now)` and
then `last_update = next_time`; otherwise the staleness check runs and the
burst accounting proceeds on the (possibly reset) state.  The `interval`
used by the accounting is computed from `capacity` and `rate`, which a
staleness reset does not change, so `(p.afterStale now).interval = p.interval`. -/
def send (p : Pacer) (sent_bytes : ℕ) (now : ℚ) : Pacer :=
  if p.rate = 0 ∨ sent_bytes = 0 then
    { p with
      next_time := max p.last_update now
      last_update := max p.last_update now }
  else
    (p.afterStale now).sendPaced sent_bytes now

/-- Run a sequence of `send` calls, each given as `(sent_bytes, now)`. -/
def sendSeq (p : Pacer) (calls : List (ℕ × ℚ)) : Pacer :=
  calls.foldl (fun q c => q.send c.1 c.2) p

/-- States reachable by the public API from a fresh pacer. -/
inductive Reachable : Pacer → Prop where
  | new : ∀ (c r : ℕ) (now : ℚ), Reachable (Pacer.new c r now)
  | update : ∀ (p : Pacer) (c r : ℕ) (now : ℚ),
      Reachable p → Reachable (p.update c r now)
  | reset : ∀ (p : Pacer) (now : ℚ),
      Reachable p → Reachable (p.reset now)
  | send : ∀ (p : Pacer) (b : ℕ) (now : ℚ),
      Reachable p → Reachable (p.send b now)

/-! ### Branch lemmas for the operations -/

/-- The degenerate fast path of `send` (`rate == 0 || sent_bytes == 0`). -/
theorem send_degenerate (p : Pacer) (b : ℕ) (now : ℚ)
    (h : p.rate = 0 ∨ b = 0) :
    p.send b now =
      { p with
        next_time := max p.last_update now
        last_update := max p.last_update now } := by
  rw [send, if_pos h]

/-- The paced path of `send` (`rate != 0 && sent_bytes != 0`). -/
theorem send_paced (p : Pacer) (b : ℕ) (now : ℚ)
    (h1 : p.rate ≠ 0) (h2 : b ≠ 0) :
    p.send b now = (p.afterStale now).sendPaced b now := by
  rw [send, if_neg (by simp [h1, h2])]

/-- No staleness reset when `elapsed ≤ interval`. -/
theorem afterStale_of_le (p : Pacer) (now : ℚ)
    (h : p.elapsed now ≤ p.interval) :
    p.afterStale now = p := by
  rw [afterStale, if_neg (not_lt.2 h)]

/-- A staleness reset fires exactly when `elapsed > interval`. -/
theorem afterStale_of_lt (p : Pacer) (now : ℚ)
    (h : p.interval < p.elapsed now) :
    p.afterStale now = p.reset now := by
  rw [afterStale, if_pos h]

/-- Rollover branch of the burst accounting. -/
theorem sendPaced_of_rollover (p : Pacer) (b : ℕ) (now : ℚ)
    (h : p.capacity ≤ p.used + b) :
    p.sendPaced b now =
      { p with
        used := p.used + b - p.capacity
        last_update := now
        next_time := max (now + p.interval) now } := by
  simp only [sendPaced]
  rw [if_pos h]

/-- Within-burst branch of the burst accounting. -/
theorem sendPaced_of_lt (p : Pacer) (b : ℕ) (now : ℚ)
    (h : p.used + b < p.capacity) :
    p.sendPaced b now =
      { p with
        used := p.used + b
        next_time := max p.last_update now } := by
  simp only [sendPaced]
  rw [if_neg (not_le.2 h)]

/-- The staleness reset does not change `capacity`, `rate` or `interval`. -/
theorem afterStale_config (p : Pacer) (now : ℚ) :
    (p.afterStale now).capacity = p.capacity ∧
    (p.afterStale now).rate = p.rate ∧
    (p.afterStale now).interval = p.interval := by
  rw [afterStale]
  split <;> exact ⟨rfl, rfl, rfl⟩

/-- The burst interval is never negative. -/
theorem interval_nonneg (p : Pacer) : 0 ≤ p.interval :=
  div_nonneg (Nat.cast_nonneg _) (Nat.cast_nonneg _)

/-- The saturating elapsed time is never negative. -/
theorem elapsed_nonneg (p : Pacer) (now : ℚ) : 0 ≤ p.elapsed now :=
  le_max_right _ _

/-- A call at the window-start instant has zero elapsed time. -/
theorem elapsed_self (p : Pacer) : p.elapsed p.last_update = 0 := by
  simp [elapsed]

/-- Running `sendSeq` over an appended call list splits into two runs. -/
theorem sendSeq_append (p : Pacer) (l1 l2 : List (ℕ × ℚ)) :
    p.sendSeq (l1 ++ l2) = (p.sendSeq l1).sendSeq l2 :=
  List.foldl_append _ _ _ _

/-- Running `sendSeq` on the empty call list is the identity. -/
theorem sendSeq_nil (p : Pacer) : p.sendSeq [] = p := rfl

/-- Running `sendSeq` peels off its first call. -/
theorem sendSeq_cons (p : Pacer) (c : ℕ × ℚ) (calls : List (ℕ × ℚ)) :
    p.sendSeq (c :: calls) = (p.send c.1 c.2).sendSeq calls := rfl

/-- A `send` that stays strictly inside the burst window (no staleness,
no rollover) accumulates `used`, sets `next_time` to the call's `now`,
and touches `last_update` only on the zero-byte fast path. -/
theorem send_within_burst_step (p : Pacer) (b : ℕ) (t : ℚ)
    (hr : p.rate ≠ 0) (hlu : p.last_update ≤ t)
    (hel : p.elapsed t ≤ p.interval)
    (hb : p.used + b < p.capacity) :
    p.send b t =
      { p with
        used := p.used + b
        last_update := if b = 0 then t else p.last_update
        next_time := t } := by
  rcases Nat.eq_zero_or_pos b with h0 | hpos
  · subst h0
    rw [send_degenerate _ _ _ (Or.inr rfl)]
    ext <;> simp [max_eq_right hlu]
  · rw [send_paced _ _ _ hr (Nat.pos_iff_ne_zero.mp hpos),
        afterStale_of_le _ _ hel, sendPaced_of_lt _ _ _ hb]
    ext <;> simp [max_eq_right hlu, Nat.pos_iff_ne_zero.mp hpos]

/-- The burst accounting never schedules before the current `now`. -/
theorem sendPaced_now_le_next_time (p : Pacer) (b : ℕ) (now : ℚ) :
    now ≤ (p.sendPaced b now).next_time := by
  simp only [sendPaced]
  split
  · exact le_max_right _ _
  · exact le_max_right _ _

/-- Every `send` leaves `next_time` at or after the call's `now`. -/
theorem send_now_le_next_time (p : Pacer) (b : ℕ) (now : ℚ) :
    now ≤ (p.send b now).next_time := by
  rw [send]
  split
  · exact le_max_right _ _
  · exact sendPaced_now_le_next_time _ _ _

/-- The burst accounting keeps `last_update ≤ next_time`. -/
theorem sendPaced_last_update_le_next_time (p : Pacer) (b : ℕ) (now : ℚ) :
    (p.sendPaced b now).last_update ≤ (p.sendPaced b now).next_time := by
  simp only [sendPaced]
  split
  · exact le_max_right _ _
  · exact le_max_left _ _

/-- Every `send` keeps `last_update ≤ next_time`. -/
theorem send_last_update_le_next_time (p : Pacer) (b : ℕ) (now : ℚ) :
    (p.send b now).last_update ≤ (p.send b now).next_time := by
  rw [send]
  split
  · exact le_refl _
  · exact sendPaced_last_update_le_next_time _ _ _

/-- Every `reset` keeps `last_update ≤ next_time`. -/
theorem reset_last_update_le_next_time (p : Pacer) (now : ℚ) :
    (p.reset now).last_update ≤ (p.reset now).next_time :=
  le_max_right _ _

/-! ### Concrete single steps of the `pacer_update` test trace -/

/-- First step of the test trace: half the burst, timestamp unchanged. -/
theorem trace_step1 (T : ℚ) :
    (Pacer.new 12000 100000 T).send 6000 T = Pacer.mk 12000 6000 100000 T T := by
  show (Pacer.mk 12000 0 100000 T T).send 6000 T = Pacer.mk 12000 6000 100000 T T
  rw [send_paced _ _ _ (by norm_num) (by norm_num),
      afterStale_of_le _ _ (by norm_num [elapsed, interval]),
      sendPaced_of_lt _ _ _ (by norm_num)]
  simp

/-- Second step of the test trace: the burst fills and rolls over. -/
theorem trace_step2 (T : ℚ) :
    (Pacer.mk 12000 6000 100000 T T).send 6000 T =
      Pacer.mk 12000 0 100000 T (T + 3/25) := by
  rw [send_paced _ _ _ (by norm_num) (by norm_num),
      afterStale_of_le _ _ (by norm_num [elapsed, interval]),
      sendPaced_of_rollover _ _ _ (by norm_num)]
  norm_num [interval]

/-- Third step of the test trace: a new window starts 1ms later. -/
theorem trace_step3 (T : ℚ) :
    (Pacer.mk 12000 0 100000 T (T + 3/25)).send 1000 (T + 1/1000) =
      Pacer.mk 12000 1000 100000 T (T + 1/1000) := by
  rw [send_paced _ _ _ (by norm_num) (by norm_num),
      afterStale_of_le _ _ (by norm_num [elapsed, interval]),
      sendPaced_of_lt _ _ _ (by norm_num)]
  norm_num

end Pacer

/-! ### The claims -/

/-- C5: a rollover call (`rate > 0`, `sent_bytes > 0`, and the bucket
value after the staleness step plus `sent_bytes` reaches `capacity`)
subtracts exactly `capacity` from `used`, carrying the remainder, sets
`last_update` to `now`, and sets `next_time` to
`max (last_update + capacity/rate) now` with the new `last_update = now`. -/
theorem send_rollover_spec (p : Pacer) (b : ℕ) (now : ℚ)
    (h1 : p.rate ≠ 0) (h2 : b ≠ 0)
    (hroll : p.capacity ≤ (p.afterStale now).used + b) :
    p.send b now =
      { capacity := p.capacity
        used := (p.afterStale now).used + b - p.capacity
        rate := p.rate
        last_update := now
        next_time := max (now + p.interval) now } := by
  obtain ⟨hc, hr, hi⟩ := Pacer.afterStale_config p now
  rw [Pacer.send_paced _ _ _ h1 h2,
      Pacer.sendPaced_of_rollover _ _ _ (hc ▸ hroll)]
  ext <;> simp [hc, hr, hi]

/-- Witness for C5: a concrete rollover. -/
theorem send_rollover_spec_witness :
    (Pacer.mk 10 6 1 0 0).send 7 0 = Pacer.mk 10 3 1 0 10 := by
  have h := send_rollover_spec (Pacer.mk 10 6 1 0 0) 7 0 (by norm_num) (by norm_num)
    (by rw [Pacer.afterStale_of_le _ _ (by norm_num [Pacer.elapsed, Pacer.interval])]; norm_num)
  rw [h, Pacer.afterStale_of_le _ _ (by norm_num [Pacer.elapsed, Pacer.interval])]
  norm_num [Pacer.interval]

/-- C6: the degenerate fast path (`rate == 0` or `sent_bytes == 0`) sets
`next_time = max last_update now`, then `last_update` to that same value,
and leaves `used`, `capacity` and `rate` untouched (no staleness reset,
no burst accounting). -/
theorem send_degenerate_spec (p : Pacer) (b : ℕ) (now : ℚ)
    (h : p.rate = 0 ∨ b = 0) :
    p.send b now =
      { capacity := p.capacity
        used := p.used
        rate := p.rate
        last_update := max p.last_update now
        next_time := max p.last_update now } := by
  rw [Pacer.send_degenerate p b now h]

/-- Witness for C6: concrete degenerate call with `rate = 0`. -/
theorem send_degenerate_spec_witness :
    (Pacer.mk 5 3 0 2 7).send 4 1 = Pacer.mk 5 3 0 2 2 := by
  rw [send_degenerate_spec (Pacer.mk 5 3 0 2 7) 4 1 (Or.inl rfl)]
  norm_num

/-- C7: the staleness threshold is strict.  Whenever the saturating
elapsed time is at most the interval — in particular when it equals the
interval exactly — `send` performs no reset and carries the existing
`used` accounting into the burst computation; a reset can therefore fire
only when elapsed is strictly greater than the interval. -/
theorem send_staleness_strict (p : Pacer) (b : ℕ) (now : ℚ)
    (h1 : p.rate ≠ 0) (h2 : b ≠ 0)
    (h3 : p.elapsed now ≤ p.interval) :
    p.send b now = p.sendPaced b now := by
  rw [Pacer.send_paced _ _ _ h1 h2, Pacer.afterStale_of_le _ _ h3]

/-- Witness for C7: elapsed exactly equal to the interval (10 seconds at
capacity 10, rate 1), the `used = 6` accounting is carried forward. -/
theorem send_staleness_strict_witness :
    (Pacer.mk 10 6 1 0 0).elapsed 10 = (Pacer.mk 10 6 1 0 0).interval ∧
    (Pacer.mk 10 6 1 0 0).send 2 10 = Pacer.mk 10 8 1 0 10 := by
  refine ⟨by norm_num [Pacer.elapsed, Pacer.interval], ?_⟩
  rw [send_staleness_strict (Pacer.mk 10 6 1 0 0) 2 10 (by norm_num) (by norm_num)
    (by norm_num [Pacer.elapsed, Pacer.interval]),
    Pacer.sendPaced_of_lt _ _ _ (by norm_num)]
  norm_num

/-- C9: the concrete trace of the `pacer_update` test.  With capacity
12000 and rate 100000 bytes/sec: `send 6000 T` leaves `next_time = T`;
another `send 6000 T` gives `next_time = T + 0.12s`; then
`send 1000 (T + 0.001s)` gives `next_time = T + 0.001s`. -/
theorem pacer_update_trace (T : ℚ) :
    ((Pacer.new 12000 100000 T).send 6000 T).next_time = T ∧
    (((Pacer.new 12000 100000 T).send 6000 T).send 6000 T).next_time
      = T + 12/100 ∧
    ((((Pacer.new 12000 100000 T).send 6000 T).send 6000 T).send 1000
      (T + 1/1000)).next_time = T + 1/1000 := by
  rw [Pacer.trace_step1, Pacer.trace_step2, Pacer.trace_step3]
  norm_num

/-- C1 (counterexample): `next_time()` is not monotone across a sequence of
`send` calls with non-decreasing `now` inputs.  On the trace of the
repository's own `pacer_update` test (nows 0, 0, 1/1000), `next_time`
falls from `3/25` (= 0.12s) back to `1/1000`. -/
theorem next_time_monotone_counterexample :
    (((Pacer.new 12000 100000 0).send 6000 0).send 6000 0).next_time = 3/25 ∧
    ((((Pacer.new 12000 100000 0).send 6000 0).send 6000 0).send 1000
      (1/1000)).next_time = 1/1000 ∧
    ((1:ℚ)/1000) < 3/25 := by
  have h1 := Pacer.trace_step1 0
  have h2 := Pacer.trace_step2 0
  have h3 := Pacer.trace_step3 0
  norm_num at h2 h3
  rw [h1, h2, h3]
  norm_num

/-- C1 (amended): `next_time()` can move backward across calls, but it
never falls behind the clock: after any sequence of `send` calls, the
value of `next_time()` is at least the `now` argument of the most recent
call, including on the degenerate fast path. -/
theorem next_time_ge_latest_now (p : Pacer) (calls : List (ℕ × ℚ))
    (b : ℕ) (now : ℚ) :
    now ≤ (p.sendSeq (calls ++ [(b, now)])).next_time := by
  rw [Pacer.sendSeq_append]
  exact Pacer.send_now_le_next_time _ _ _

/-- C2 (counterexample): a rollover does not always normalize `used`
below `capacity`: sending 25 bytes on a fresh pacer with capacity 10
(rate 1) rolls over yet leaves `used = 15 ≥ 10`. -/
theorem used_below_capacity_counterexample :
    0 < (Pacer.new 10 1 0).capacity ∧
    (Pacer.new 10 1 0).capacity ≤ (Pacer.new 10 1 0).used + 25 ∧
    ((Pacer.new 10 1 0).send 25 0).used = 15 ∧
    ¬ ((Pacer.new 10 1 0).send 25 0).used <
        ((Pacer.new 10 1 0).send 25 0).capacity := by
  have h : (Pacer.new 10 1 0).send 25 0 = Pacer.mk 10 15 1 0 10 := by
    show (Pacer.mk 10 0 1 0 0).send 25 0 = _
    rw [Pacer.send_paced _ _ _ (by norm_num) (by norm_num),
        Pacer.afterStale_of_le _ _ (by norm_num [Pacer.elapsed, Pacer.interval]),
        Pacer.sendPaced_of_rollover _ _ _ (by norm_num)]
    norm_num [Pacer.interval]
  refine ⟨by norm_num [Pacer.new], by norm_num [Pacer.new], ?_, ?_⟩
  · rw [h]
  · rw [h]
    norm_num

/-- C2 (amended): after a rollover, `used` drops by exactly `capacity`;
it ends strictly below `capacity` provided the bucket value entering the
rollover (the post-staleness `used` plus `sent_bytes`) is below twice
`capacity`. -/
theorem used_below_capacity_after_rollover (p : Pacer) (b : ℕ) (now : ℚ)
    (h1 : p.rate ≠ 0) (h2 : b ≠ 0) (_hcap : 0 < p.capacity)
    (hroll : p.capacity ≤ (p.afterStale now).used + b)
    (hbound : (p.afterStale now).used + b < 2 * p.capacity) :
    (p.send b now).used < p.capacity := by
  obtain ⟨hc, -, -⟩ := Pacer.afterStale_config p now
  rw [Pacer.send_paced _ _ _ h1 h2,
      Pacer.sendPaced_of_rollover _ _ _ (hc ▸ hroll)]
  show (p.afterStale now).used + b - (p.afterStale now).capacity < p.capacity
  rw [hc]
  omega

/-- Witness for the amended C2: capacity 10, used 6, 7 more bytes sent —
rollover leaves `used = 3 < 10`. -/
theorem used_below_capacity_after_rollover_witness :
    ((Pacer.mk 10 6 1 0 0).send 7 0).used < (Pacer.mk 10 6 1 0 0).capacity := by
  have hstale : (Pacer.mk 10 6 1 0 0).afterStale 0 = Pacer.mk 10 6 1 0 0 :=
    Pacer.afterStale_of_le _ _ (by norm_num [Pacer.elapsed, Pacer.interval])
  exact used_below_capacity_after_rollover (Pacer.mk 10 6 1 0 0) 7 0
    (by norm_num) (by norm_num) (by norm_num)
    (by rw [hstale]; norm_num) (by rw [hstale]; norm_num)

/-- C10: for every reachable pacer state, `last_update ≤ next_time`; it
is established by `new` and preserved by `update`, `reset` and `send`. -/
theorem reachable_last_update_le_next_time (p : Pacer)
    (h : Pacer.Reachable p) : p.last_update ≤ p.next_time := by
  induction h with
  | new c r now => exact le_refl _
  | update q c r now _ _ =>
      exact Pacer.reset_last_update_le_next_time _ _
  | reset q now _ _ =>
      exact Pacer.reset_last_update_le_next_time _ _
  | send q b now _ _ =>
      exact Pacer.send_last_update_le_next_time _ _ _

/-- Witness for C10 on a concrete reachable state. -/
theorem reachable_last_update_le_next_time_witness :
    ((Pacer.new 10 1 0).send 25 0).last_update ≤
      ((Pacer.new 10 1 0).send 25 0).next_time :=
  reachable_last_update_le_next_time _
    (Pacer.Reachable.send _ 25 0 (Pacer.Reachable.new 10 1 0))

/-- C3 (counterexample): after a gap exceeding `C/R`, a zero-byte `send`
takes the degenerate fast path, skips the staleness reset, and carries the
leftover `used` forward — unlike the same call on a freshly created pacer.
Here `C = 10`, `R = 1`, first send at `now1 = 0`, second at `now2 = 20`. -/
theorem stale_fresh_equiv_counterexample :
    (10:ℚ)/1 < 20 - 0 ∧
    ((Pacer.new 10 1 0).send 6 0).send 0 20 = Pacer.mk 10 6 1 20 20 ∧
    (Pacer.new 10 1 20).send 0 20 = Pacer.mk 10 0 1 20 20 ∧
    ((Pacer.new 10 1 0).send 6 0).send 0 20 ≠ (Pacer.new 10 1 20).send 0 20 := by
  have h1 : (Pacer.new 10 1 0).send 6 0 = Pacer.mk 10 6 1 0 0 := by
    show (Pacer.mk 10 0 1 0 0).send 6 0 = _
    rw [Pacer.send_paced _ _ _ (by norm_num) (by norm_num),
        Pacer.afterStale_of_le _ _ (by norm_num [Pacer.elapsed, Pacer.interval]),
        Pacer.sendPaced_of_lt _ _ _ (by norm_num)]
    norm_num
  have h2 : (Pacer.mk 10 6 1 0 0).send 0 20 = Pacer.mk 10 6 1 20 20 := by
    rw [Pacer.send_degenerate _ _ _ (Or.inr rfl)]
    norm_num
  have h3 : (Pacer.new 10 1 20).send 0 20 = Pacer.mk 10 0 1 20 20 := by
    show (Pacer.mk 10 0 1 20 20).send 0 20 = _
    rw [Pacer.send_degenerate _ _ _ (Or.inr rfl)]
    norm_num
  refine ⟨by norm_num, by rw [h1, h2], h3, ?_⟩
  rw [h1, h2, h3]
  simp [Pacer.mk.injEq]

/-- C3 (amended): if the gap since a state whose `last_update` is at most
`now1` (as after a `send` at `now1` under a non-decreasing clock) strictly
exceeds `capacity/rate`, then a *positive*-byte `send` at `now2` yields
exactly the state of the same `send` on a pacer freshly created at `now2`;
zero-byte sends are excluded because the degenerate fast path skips the
staleness reset. -/
theorem stale_send_eq_fresh_send (p : Pacer) (b : ℕ) (now1 now2 : ℚ)
    (hr : p.rate ≠ 0) (_hc : 0 < p.capacity) (hb : b ≠ 0)
    (hlu : p.last_update ≤ now1)
    (hgap : p.interval < now2 - now1) :
    p.send b now2 = (Pacer.new p.capacity p.rate now2).send b now2 := by
  have hstale : p.interval < p.elapsed now2 := by
    apply lt_of_lt_of_le hgap
    apply le_trans _ (le_max_left _ _)
    linarith
  have hfreshr : (Pacer.new p.capacity p.rate now2).rate ≠ 0 := hr
  have hfresh : (Pacer.new p.capacity p.rate now2).afterStale now2 =
      Pacer.new p.capacity p.rate now2 := by
    apply Pacer.afterStale_of_le
    show (Pacer.new p.capacity p.rate now2).elapsed now2 ≤ _
    rw [show (Pacer.new p.capacity p.rate now2).elapsed now2 = 0 by
      simp [Pacer.new, Pacer.elapsed]]
    exact Pacer.interval_nonneg _
  rw [Pacer.send_paced _ _ _ hr hb, Pacer.afterStale_of_lt _ _ hstale,
      Pacer.send_paced _ _ _ hfreshr hb, hfresh]
  rcases le_or_lt p.capacity b with hbc | hbc
  · rw [Pacer.sendPaced_of_rollover _ _ _
        (by show p.capacity ≤ 0 + b; omega),
        Pacer.sendPaced_of_rollover _ _ _
        (by show p.capacity ≤ 0 + b; omega)]
    ext <;> simp [Pacer.reset, Pacer.new, Pacer.interval]
  · rw [Pacer.sendPaced_of_lt _ _ _ (by show 0 + b < p.capacity; omega),
        Pacer.sendPaced_of_lt _ _ _ (by show 0 + b < p.capacity; omega)]
    ext <;> simp [Pacer.reset, Pacer.new]

/-- Witness for the amended C3: `C = 10`, `R = 1`, a pacer that sent 6
bytes at `now1 = 0`, then sends 5 bytes at `now2 = 20`. -/
theorem stale_send_eq_fresh_send_witness :
    (Pacer.mk 10 6 1 0 0).send 5 20 = (Pacer.new 10 1 20).send 5 20 := by
  exact stale_send_eq_fresh_send (Pacer.mk 10 6 1 0 0) 5 0 20
    (by norm_num) (by norm_num) (by norm_num) (by norm_num)
    (by norm_num [Pacer.interval])

/-- Auxiliary for C4: sends at the window-start instant `T` whose running
total stays strictly below capacity just accumulate `used` and leave the
timestamps at `T`. -/
theorem sendSeq_accumulate (C R : ℕ) (T : ℚ) (hR : R ≠ 0) :
    ∀ (bs : List ℕ) (u : ℕ), u + bs.sum < C →
      (Pacer.mk C u R T T).sendSeq (bs.map fun x => (x, T))
        = Pacer.mk C (u + bs.sum) R T T := by
  intro bs
  induction bs with
  | nil => intro u _; simp [Pacer.sendSeq_nil]
  | cons hd tl ih =>
      intro u hu
      have hsum : u + (hd :: tl).sum = u + hd + tl.sum := by
        simp [List.sum_cons]; ring
      have hstep : (Pacer.mk C u R T T).send hd T = Pacer.mk C (u + hd) R T T := by
        rw [Pacer.send_within_burst_step _ _ _ hR le_rfl
          (by rw [show (Pacer.mk C u R T T).elapsed T = 0 by
                simp [Pacer.elapsed]]
              exact Pacer.interval_nonneg _)
          (by show u + hd < C; omega)]
        ext <;> simp
      rw [List.map_cons, Pacer.sendSeq_cons]
      show ((Pacer.mk C u R T T).send hd T).sendSeq (tl.map fun x => (x, T)) = _
      rw [hstep, ih (u + hd) (by omega), hsum]

/-- C4 (counterexample): a trailing zero-byte call breaks the exact burst
boundary.  With `C = 10`, `R = 1`, `T = 0`, the calls `[10, 0]` at `T`
total exactly `C`, yet `next_time()` ends at `0`, not `T + C/R = 10`. -/
theorem exact_burst_boundary_counterexample :
    [10, 0].sum = 10 ∧
    ((Pacer.new 10 1 0).sendSeq [(10, 0), (0, 0)]).next_time = 0 ∧
    (0:ℚ) ≠ 0 + (10:ℚ)/1 := by
  have h1 : (Pacer.new 10 1 0).send 10 0 = Pacer.mk 10 0 1 0 10 := by
    show (Pacer.mk 10 0 1 0 0).send 10 0 = _
    rw [Pacer.send_paced _ _ _ (by norm_num) (by norm_num),
        Pacer.afterStale_of_le _ _ (by norm_num [Pacer.elapsed, Pacer.interval]),
        Pacer.sendPaced_of_rollover _ _ _ (by norm_num)]
    norm_num [Pacer.interval]
  have h2 : (Pacer.mk 10 0 1 0 10).send 0 0 = Pacer.mk 10 0 1 0 0 := by
    rw [Pacer.send_degenerate _ _ _ (Or.inr rfl)]
    norm_num
  refine ⟨by norm_num, ?_, by norm_num⟩
  rw [Pacer.sendSeq_cons, Pacer.sendSeq_cons, Pacer.sendSeq_nil]
  show (((Pacer.new 10 1 0).send 10 0).send 0 0).next_time = 0
  rw [h1, h2]

/-- C4 (amended): for capacity `C > 0` and rate `R > 0`, starting from a
fresh pacer at `T`, after send calls at `T` totalling exactly `C` whose
*final* call sends a positive number of bytes, `next_time()` equals
`T + C/R` exactly.  (A trailing zero-byte call would take the degenerate
fast path and clamp `next_time` back to `T`.) -/
theorem exact_burst_boundary (C R : ℕ) (T : ℚ) (bs : List ℕ) (b : ℕ)
    (_hC : 0 < C) (hR : 0 < R) (hb : 0 < b)
    (hsum : (bs ++ [b]).sum = C) :
    ((Pacer.new C R T).sendSeq ((bs ++ [b]).map fun x => (x, T))).next_time
      = T + (C : ℚ) / (R : ℚ) := by
  have hR0 : R ≠ 0 := Nat.pos_iff_ne_zero.mp hR
  have hb0 : b ≠ 0 := Nat.pos_iff_ne_zero.mp hb
  have hinit : bs.sum + b = C := by simpa using hsum
  rw [List.map_append, Pacer.sendSeq_append]
  have h1 : (Pacer.new C R T).sendSeq (bs.map fun x => (x, T))
      = Pacer.mk C bs.sum R T T := by
    have h := sendSeq_accumulate C R T hR0 bs 0 (by omega)
    simpa [Pacer.new] using h
  rw [h1, List.map_singleton, Pacer.sendSeq_cons, Pacer.sendSeq_nil]
  show ((Pacer.mk C bs.sum R T T).send b T).next_time = _
  rw [Pacer.send_paced _ _ _ hR0 hb0,
      Pacer.afterStale_of_le _ _
        (by rw [show (Pacer.mk C bs.sum R T T).elapsed T = 0 by
              simp [Pacer.elapsed]]
            exact Pacer.interval_nonneg _),
      Pacer.sendPaced_of_rollover _ _ _ (by show C ≤ bs.sum + b; omega)]
  show max (T + (Pacer.mk C bs.sum R T T).interval) T = _
  rw [max_eq_left (by linarith [Pacer.interval_nonneg (Pacer.mk C bs.sum R T T)])]
  rfl

/-- Witness for the amended C4: `C = 10`, `R = 1`, calls `[4, 6]` at
`T = 0` give `next_time = 0 + 10/1`. -/
theorem exact_burst_boundary_witness :
    ((Pacer.new 10 1 0).sendSeq (([4] ++ [6]).map fun x => (x, 0))).next_time
      = 0 + (10:ℚ)/1 :=
  exact_burst_boundary 10 1 0 [4] 6 (by norm_num) (by norm_num) (by norm_num)
    (by norm_num)

/-- Auxiliary for C8: starting inside a burst window that opened at
`lu0` (so `lu0 ≤ last_update`), a run of sends with non-decreasing `now`
values all lying in `[last_update, lu0 + interval]` and total bytes
keeping `used` strictly below capacity ends with
`next_time ≤` the final call's `now`. -/
theorem sendSeq_within_window_aux (iv lu0 : ℚ) :
    ∀ (calls : List (ℕ × ℚ)) (b : ℕ) (now : ℚ) (p : Pacer),
      p.rate ≠ 0 → p.interval = iv → lu0 ≤ p.last_update →
      (∀ c ∈ calls ++ [(b, now)], p.last_update ≤ c.2 ∧ c.2 ≤ lu0 + iv) →
      List.Pairwise (fun c d : ℕ × ℚ => c.2 ≤ d.2) (calls ++ [(b, now)]) →
      p.used + ((calls ++ [(b, now)]).map Prod.fst).sum < p.capacity →
      (p.sendSeq (calls ++ [(b, now)])).next_time ≤ now := by
  intro calls
  induction calls with
  | nil =>
      intro b now p hr hiv hlu0 hwin _hpair hsum
      obtain ⟨hlu, hhi⟩ := hwin (b, now) (by simp)
      have hel : p.elapsed now ≤ p.interval := by
        rw [Pacer.elapsed, hiv]
        refine max_le (by linarith) ?_
        rw [← hiv]
        exact Pacer.interval_nonneg p
      rw [List.nil_append, Pacer.sendSeq_cons, Pacer.sendSeq_nil,
        Pacer.send_within_burst_step p b now hr hlu hel (by simpa using hsum)]
  | cons hd tl ih =>
      intro b now p hr hiv hlu0 hwin hpair hsum
      obtain ⟨hlu, hhi⟩ := hwin hd (by simp)
      have hel : p.elapsed hd.2 ≤ p.interval := by
        rw [Pacer.elapsed, hiv]
        refine max_le (by linarith) ?_
        rw [← hiv]
        exact Pacer.interval_nonneg p
      have hbound : p.used + hd.1 < p.capacity := by
        simp only [List.cons_append, List.map_cons, List.sum_cons] at hsum
        omega
      rw [List.cons_append, Pacer.sendSeq_cons,
        Pacer.send_within_burst_step p hd.1 hd.2 hr hlu hel hbound]
      have hpair' := List.pairwise_cons.mp (List.cons_append hd tl [(b, now)] ▸ hpair)
      refine ih b now _ ?_ ?_ ?_ ?_ ?_ ?_
      · exact hr
      · exact hiv
      · show lu0 ≤ (if hd.1 = 0 then hd.2 else p.last_update)
        split
        · linarith
        · exact hlu0
      · intro c hc
        obtain ⟨h1, h2⟩ := hwin c (by simp only [List.cons_append, List.mem_cons]; right; exact hc)
        refine ⟨?_, h2⟩
        show (if hd.1 = 0 then hd.2 else p.last_update) ≤ c.2
        split
        · exact hpair'.1 c hc
        · exact h1
      · exact hpair'.2
      · show p.used + hd.1 + _ < p.capacity
        simp only [List.cons_append, List.map_cons, List.sum_cons] at hsum
        omega

/-- C8: for `capacity > used` totals and `rate > 0`, a run of `send`
calls inside a single burst window — `used` starts at 0, the `now`
values are non-decreasing and stay within one interval of the window
start (so no staleness reset fires), and the byte counts total strictly
less than `capacity` — never advances `next_time()` past the final
call's own `now` (and hence, since every run's prefix is such a run,
past any call's own `now`). -/
theorem within_burst_no_wait (p : Pacer) (calls : List (ℕ × ℚ)) (b : ℕ)
    (now : ℚ)
    (hr : p.rate ≠ 0) (hu : p.used = 0)
    (hsum : ((calls ++ [(b, now)]).map Prod.fst).sum < p.capacity)
    (hwin : ∀ c ∈ calls ++ [(b, now)],
      p.last_update ≤ c.2 ∧ c.2 ≤ p.last_update + p.interval)
    (hmono : List.Pairwise (fun c d : ℕ × ℚ => c.2 ≤ d.2)
      (calls ++ [(b, now)])) :
    (p.sendSeq (calls ++ [(b, now)])).next_time ≤ now := by
  apply sendSeq_within_window_aux p.interval p.last_update calls b now p hr
    rfl le_rfl hwin hmono
  simpa [hu] using hsum

/-- Witness for C8: capacity 10, rate 1, window start 0; calls
`(3 bytes, t=0)` then `(4 bytes, t=1)` leave `next_time ≤ 1`. -/
theorem within_burst_no_wait_witness :
    ((Pacer.new 10 1 0).sendSeq ([(3, 0)] ++ [(4, 1)])).next_time ≤ 1 := by
  apply within_burst_no_wait (Pacer.new 10 1 0) [(3, 0)] 4 1
    (by norm_num [Pacer.new]) rfl (by norm_num [Pacer.new])
  · intro c hc
    simp only [List.cons_append, List.nil_append, List.mem_cons,
      List.not_mem_nil, or_false] at hc
    rcases hc with rfl | rfl <;>
      constructor <;> norm_num [Pacer.new, Pacer.interval]
  · simp only [List.cons_append, List.nil_append, List.pairwise_cons]
    refine ⟨?_, by simp⟩
    intro c hc
    simp only [List.mem_cons, List.not_mem_nil, or_false] at hc
    subst hc
    norm_num
